import Mathlib

/-!
Shallow embedding of the `LRUCache` engine from `src/cache/lru.ts` of the
`ttl-cache` repository, together with proofs about the claims of its
specification.

Modelling conventions:
* `Date.now()` timestamps are natural numbers of milliseconds; every public
  operation receives the current time `now` explicitly.
* The JavaScript `Map` backing store is an association list with `Map`
  semantics: `set` of an existing key updates it in place, `set` of a new key
  appends at the end, `delete` removes the entry, iteration follows insertion
  order.
* `expiry : Option Nat` with `none` standing for `Infinity` (no TTL).
* `maxSize : Option Nat` with `none` standing for the JavaScript `undefined`;
  the comparison `this.cache.size >= undefined` is `false` in JavaScript, which
  the capacity test mirrors.
* Operations that mutate `this` are state-passing functions returning the new
  cache (paired with the returned value where the source returns one).
-/

namespace TTLCache

/-- Model of `CacheEntry` as stored by `LRUCache.set`: `{value, expiry}`.
`expiry = none` models `Infinity` (an entry without TTL). -/
structure CacheEntry (V : Type) where
  value : V
  expiry : Option Nat
  deriving Repr, DecidableEq

/-- The options object of `LRUCache` (`LRUCacheOptions` in `src/types.ts`).
Fields the constructor in `src/cache/lru.ts` never reads (`maxMemoryBytes`,
`slidingTTL`, `maxTTL`) are kept so that configurations from the spec can be
written down. `none` models an omitted (`undefined`) field. -/
structure LRUCacheOptions where
  maxSize : Option Nat := none
  maxMemoryBytes : Option Nat := none
  ttl : Option Nat := none
  slidingTTL : Bool := false
  maxTTL : Option Nat := none
  useCollection : Bool := false
  deriving Repr, DecidableEq

/-- The `LRUCache` state: the entry map `cache` and the recency list
`keyOrder` (least recently used first), plus the configuration read by the
constructor. -/
structure LRUCache (K V : Type) where
  maxSize : Option Nat
  ttl : Option Nat
  cache : List (K × CacheEntry V)
  keyOrder : List K
  deriving Repr, DecidableEq

variable {K V : Type} [DecidableEq K]

/-- JavaScript `Map.prototype.has`. -/
def mapHas : List (K × CacheEntry V) → K → Bool
  | [], _ => false
  | (k', _) :: rest, k => decide (k = k') || mapHas rest k

/-- JavaScript `Map.prototype.get`. -/
def mapGet : List (K × CacheEntry V) → K → Option (CacheEntry V)
  | [], _ => none
  | (k', e') :: rest, k => if k = k' then some e' else mapGet rest k

/-- JavaScript `Map.prototype.set`: update in place when the key exists,
append at the end otherwise. -/
def mapSet : List (K × CacheEntry V) → K → CacheEntry V → List (K × CacheEntry V)
  | [], k, e => [(k, e)]
  | (k', e') :: rest, k, e =>
      if k = k' then (k, e) :: rest else (k', e') :: mapSet rest k e

/-- JavaScript `Map.prototype.delete` (the state change): removes the entry
with the given key, keeping the others in order. -/
def mapDelete : List (K × CacheEntry V) → K → List (K × CacheEntry V)
  | [], _ => []
  | (k', e') :: rest, k =>
      if k = k' then rest else (k', e') :: mapDelete rest k

/-- Model of `keyOrder.indexOf(key)` followed by `splice(index, 1)`: removes the first
occurrence of `k`, and is a no-op when `k` is absent. -/
def removeFirst : List K → K → List K
  | [], _ => []
  | x :: xs, k => if k = x then xs else x :: removeFirst xs k

namespace LRUCache

/-- Model of `new LRUCache(options)`. The only throwing path in the source is
`loadDiscordCollection()` when `options.useCollection` is set and discord.js
is not installed; `discordAvailable` models that environment fact. Note that
the constructor performs no validation of `maxSize`/`maxMemoryBytes`. -/
def mk' (opts : LRUCacheOptions) (discordAvailable : Bool) :
    Except String (LRUCache K V) :=
  if opts.useCollection && !discordAvailable then
    .error "discord.js not installed"
  else
    .ok { maxSize := opts.maxSize, ttl := opts.ttl, cache := [], keyOrder := [] }

/-- A freshly constructed cache with the given limits (the successful result
of the constructor). -/
def empty (maxSize ttl : Option Nat) : LRUCache K V :=
  { maxSize := maxSize, ttl := ttl, cache := [], keyOrder := [] }

/-- Model of `isExpired(entry)`: `Date.now() > entry.expiry`; comparison with
`Infinity` is always false. -/
def isExpired (now : Nat) (e : CacheEntry V) : Bool :=
  match e.expiry with
  | none => false
  | some t => decide (now > t)

/-- Model of `moveToEnd(key)`: splice the key out of `keyOrder` (if present) and push
it at the back. -/
def moveToEnd (c : LRUCache K V) (k : K) : LRUCache K V :=
  { c with keyOrder := removeFirst c.keyOrder k ++ [k] }

/-- Model of `evictOldest()`: shift the head of `keyOrder` and delete it from the map;
a no-op on an empty order list. -/
def evictOldest (c : LRUCache K V) : LRUCache K V :=
  match c.keyOrder with
  | [] => c
  | oldest :: rest =>
      { c with keyOrder := rest, cache := mapDelete c.cache oldest }

/-- Model of the capacity test `this.cache.size >= this.maxSize`. When `maxSize` is `undefined` the
JavaScript comparison is `false`. -/
def atCapacity (c : LRUCache K V) : Bool :=
  match c.maxSize with
  | some m => decide (c.cache.length ≥ m)
  | none => false

/-- Model of `set(key, value)`. -/
def set (c : LRUCache K V) (now : Nat) (k : K) (v : V) : LRUCache K V :=
  let expiry : Option Nat := c.ttl.map (fun t => now + t)
  let c' :=
    if mapHas c.cache k then
      moveToEnd c k
    else
      let c1 := if atCapacity c then evictOldest c else c
      { c1 with keyOrder := c1.keyOrder ++ [k] }
  { c' with cache := mapSet c'.cache k ⟨v, expiry⟩ }

/-- Model of `delete(key)`: splice the key out of `keyOrder`, then `cache.delete`,
whose boolean result (was the key in the map?) is returned. -/
def delete (c : LRUCache K V) (k : K) : Bool × LRUCache K V :=
  (mapHas c.cache k,
   { c with keyOrder := removeFirst c.keyOrder k, cache := mapDelete c.cache k })

/-- Model of `get(key)`: miss on absent key; expired entries are deleted and reported
as a miss; a hit moves the key to the most-recently-used end. -/
def get (c : LRUCache K V) (now : Nat) (k : K) : Option V × LRUCache K V :=
  match mapGet c.cache k with
  | none => (none, c)
  | some e =>
      if isExpired now e then (none, (c.delete k).2)
      else (some e.value, c.moveToEnd k)

/-- Model of `has(key)`: like `get` but returns a boolean and does not update
recency. -/
def hasOp (c : LRUCache K V) (now : Nat) (k : K) : Bool × LRUCache K V :=
  match mapGet c.cache k with
  | none => (false, c)
  | some e =>
      if isExpired now e then (false, (c.delete k).2)
      else (true, c)

/-- Model of `clear()`. -/
def clear (c : LRUCache K V) : LRUCache K V :=
  { c with cache := [], keyOrder := [] }

/-- Model of `pruneExpired()`: collect the keys of expired entries in map order, then
delete each. -/
def pruneExpired (c : LRUCache K V) (now : Nat) : LRUCache K V :=
  let keysToDelete := (c.cache.filter (fun p => isExpired now p.2)).map Prod.fst
  keysToDelete.foldl (fun acc k => (acc.delete k).2) c

/-- The `size` getter: prune expired entries, then return `cache.size`. -/
def size (c : LRUCache K V) (now : Nat) : Nat × LRUCache K V :=
  let c' := c.pruneExpired now
  (c'.cache.length, c')

/-- Model of `keys()`: prune, then iterate the map's keys. -/
def keysOp (c : LRUCache K V) (now : Nat) : List K × LRUCache K V :=
  let c' := c.pruneExpired now
  (c'.cache.map Prod.fst, c')

/-- Model of `values()`: prune, then collect the values of non-expired entries. -/
def valuesOp (c : LRUCache K V) (now : Nat) : List V × LRUCache K V :=
  let c' := c.pruneExpired now
  ((c'.cache.filter (fun p => !isExpired now p.2)).map (fun p => p.2.value), c')

/-- Model of `entries()`: prune, then collect the non-expired key/value pairs. -/
def entriesOp (c : LRUCache K V) (now : Nat) : List (K × V) × LRUCache K V :=
  let c' := c.pruneExpired now
  ((c'.cache.filter (fun p => !isExpired now p.2)).map
      (fun p => (p.1, p.2.value)), c')

/-- Model of `forEach(callback)`: the sequence of `(value, key)` visits the callback
receives, together with the state after the initial pruning. -/
def forEachOp (c : LRUCache K V) (now : Nat) : List (V × K) × LRUCache K V :=
  let c' := c.pruneExpired now
  ((c'.cache.filter (fun p => !isExpired now p.2)).map
      (fun p => (p.2.value, p.1)), c')

/-- A sequence of `set` calls: each element of `ops` is
`(now, key, value)`. -/
def insertAll (c : LRUCache K V) (ops : List (Nat × K × V)) : LRUCache K V :=
  ops.foldl (fun acc op => acc.set op.1 op.2.1 op.2.2) c

end LRUCache

/-- Structural well-formedness (invariant I1 of the spec): the entry map and
`keyOrder` hold the same keys, each exactly once. -/
def WF (c : LRUCache K V) : Prop :=
  (c.cache.map Prod.fst).Perm c.keyOrder ∧ c.keyOrder.Nodup

instance (c : LRUCache K V) : Decidable (WF c) := by
  unfold WF; infer_instance

/-! ### Lemmas about the JavaScript `Map` model and `removeFirst` -/

theorem mapHas_eq_true_iff :
    ∀ (m : List (K × CacheEntry V)) (k : K),
      mapHas m k = true ↔ k ∈ m.map Prod.fst
  | [], k => by simp [mapHas]
  | (k', e') :: rest, k => by
      by_cases hk : k = k' <;>
        simp [mapHas, hk, mapHas_eq_true_iff rest k]

theorem mapGet_eq_none_iff :
    ∀ (m : List (K × CacheEntry V)) (k : K),
      mapGet m k = none ↔ k ∉ m.map Prod.fst
  | [], k => by simp [mapGet]
  | (k', e') :: rest, k => by
      by_cases hk : k = k' <;>
        simp [mapGet, hk, mapGet_eq_none_iff rest k]

theorem mem_map_fst_of_mapGet_eq_some {m : List (K × CacheEntry V)} {k : K}
    {e : CacheEntry V} (h : mapGet m k = some e) : k ∈ m.map Prod.fst := by
  by_contra hk
  rw [(mapGet_eq_none_iff m k).mpr hk] at h
  exact Option.noConfusion h

theorem mem_of_mapGet_eq_some :
    ∀ {m : List (K × CacheEntry V)} {k : K} {e : CacheEntry V},
      mapGet m k = some e → (k, e) ∈ m
  | (k', e') :: rest, k, e, h => by
      by_cases hk : k = k'
      · subst hk
        simp [mapGet] at h
        subst h
        exact List.mem_cons_self _ _
      · simp only [mapGet, if_neg hk] at h
        exact List.mem_cons_of_mem _ (mem_of_mapGet_eq_some h)

theorem map_fst_mapSet_of_mem :
    ∀ {m : List (K × CacheEntry V)} {k : K} (e : CacheEntry V),
      k ∈ m.map Prod.fst → (mapSet m k e).map Prod.fst = m.map Prod.fst
  | [], _, _, h => by simp at h
  | (k', e') :: rest, k, e, h => by
      by_cases hk : k = k'
      · simp [mapSet, hk]
      · have hmem : k ∈ rest.map Prod.fst := by
          rcases List.mem_cons.mp h with h1 | h1
          · exact absurd h1 hk
          · exact h1
        simp [mapSet, hk, map_fst_mapSet_of_mem e hmem]

theorem map_fst_mapSet_of_not_mem :
    ∀ {m : List (K × CacheEntry V)} {k : K} (e : CacheEntry V),
      k ∉ m.map Prod.fst → (mapSet m k e).map Prod.fst = m.map Prod.fst ++ [k]
  | [], _, _, _ => rfl
  | (k', e') :: rest, k, e, h => by
      have hk : ¬(k = k') := fun hx => h (by simp [hx])
      have hrest : k ∉ rest.map Prod.fst := fun hm => h (by simp [hm])
      simp [mapSet, hk, map_fst_mapSet_of_not_mem e hrest]

theorem map_fst_mapDelete :
    ∀ (m : List (K × CacheEntry V)) (k : K),
      (mapDelete m k).map Prod.fst = removeFirst (m.map Prod.fst) k
  | [], _ => rfl
  | (k', e') :: rest, k => by
      by_cases hk : k = k' <;>
        simp [mapDelete, removeFirst, hk, map_fst_mapDelete rest k]

theorem removeFirst_of_not_mem :
    ∀ {L : List K} {k : K}, k ∉ L → removeFirst L k = L
  | [], _, _ => rfl
  | x :: xs, k, h => by
      have hk : ¬(k = x) := fun hx => h (by simp [hx])
      have hxs : k ∉ xs := fun hm => h (List.mem_cons_of_mem x hm)
      simp [removeFirst, hk, removeFirst_of_not_mem hxs]

theorem removeFirst_sublist :
    ∀ (L : List K) (k : K), List.Sublist (removeFirst L k) L
  | [], _ => List.Sublist.refl []
  | x :: xs, k => by
      simp only [removeFirst]
      split
      · exact List.sublist_cons_self x xs
      · exact (removeFirst_sublist xs k).cons₂ x

theorem removeFirst_nodup {L : List K} (h : L.Nodup) (k : K) :
    (removeFirst L k).Nodup :=
  h.sublist (removeFirst_sublist L k)

theorem perm_cons_removeFirst :
    ∀ {L : List K} {k : K}, k ∈ L → L.Perm (k :: removeFirst L k)
  | x :: xs, k, h => by
      by_cases hk : k = x
      · subst hk; simp [removeFirst]
      · have hxs : k ∈ xs := by
          rcases List.mem_cons.mp h with h1 | h1
          · exact absurd h1 hk
          · exact h1
        have ih := perm_cons_removeFirst hxs
        have step1 : (x :: xs).Perm (x :: k :: removeFirst xs k) := ih.cons x
        have step2 : (x :: k :: removeFirst xs k).Perm (k :: x :: removeFirst xs k) :=
          List.Perm.swap k x _
        have heq : k :: removeFirst (x :: xs) k = k :: x :: removeFirst xs k := by
          simp [removeFirst, hk]
        rw [heq]
        exact step1.trans step2

theorem not_mem_removeFirst :
    ∀ {L : List K}, L.Nodup → ∀ (k : K), k ∉ removeFirst L k
  | [], _, k => List.not_mem_nil k
  | x :: xs, h, k => by
      obtain ⟨hx, hxs⟩ := List.nodup_cons.mp h
      by_cases hk : k = x
      · subst hk; simpa [removeFirst] using hx
      · simp only [removeFirst, if_neg hk, List.mem_cons]
        rintro (h1 | h1)
        · exact hk h1
        · exact not_mem_removeFirst hxs k h1

theorem mapGet_mapSet_self :
    ∀ (m : List (K × CacheEntry V)) (k : K) (e : CacheEntry V),
      mapGet (mapSet m k e) k = some e
  | [], k, e => by simp [mapSet, mapGet]
  | (k', e') :: rest, k, e => by
      by_cases hk : k = k' <;>
        simp [mapSet, mapGet, hk, mapGet_mapSet_self rest k e]

theorem mapGet_mapSet_ne :
    ∀ (m : List (K × CacheEntry V)) {k x : K} (e : CacheEntry V), x ≠ k →
      mapGet (mapSet m k e) x = mapGet m x
  | [], k, x, e, h => by simp [mapSet, mapGet, h]
  | (k', e') :: rest, k, x, e, h => by
      by_cases hk : k = k'
      · subst hk
        simp [mapSet, mapGet, h]
      · by_cases hx : x = k' <;>
          simp [mapSet, mapGet, hk, hx, mapGet_mapSet_ne rest e h]

theorem mapGet_mapDelete_ne :
    ∀ (m : List (K × CacheEntry V)) {k x : K}, x ≠ k →
      mapGet (mapDelete m k) x = mapGet m x
  | [], _, _, _ => rfl
  | (k', e') :: rest, k, x, h => by
      by_cases hk : k = k'
      · subst hk
        simp [mapDelete, mapGet, h]
      · by_cases hx : x = k' <;>
          simp [mapDelete, mapGet, hk, hx, mapGet_mapDelete_ne rest h]

theorem mapGet_eq_some_of_mem_nodup :
    ∀ {m : List (K × CacheEntry V)}, (m.map Prod.fst).Nodup →
      ∀ {k : K} {e : CacheEntry V}, (k, e) ∈ m → mapGet m k = some e
  | [], _, _, _, h => absurd h (List.not_mem_nil _)
  | (k', e') :: rest, hn, k, e, h => by
      obtain ⟨hk', hrest⟩ := List.nodup_cons.mp hn
      rcases List.mem_cons.mp h with h1 | h1
      · obtain ⟨rfl, rfl⟩ := Prod.mk.injEq .. ▸ h1
        simp [mapGet]
      · have hkk' : ¬(k = k') := by
          rintro rfl
          exact hk' (List.mem_map.mpr ⟨(k, e), h1, rfl⟩)
        simp only [mapGet, if_neg hkk']
        exact mapGet_eq_some_of_mem_nodup hrest h1

theorem mapDelete_eq_filter :
    ∀ {m : List (K × CacheEntry V)}, (m.map Prod.fst).Nodup → ∀ (k : K),
      mapDelete m k = m.filter (fun p => !decide (p.1 = k))
  | [], _, _ => rfl
  | (k', e') :: rest, hn, k => by
      obtain ⟨hk', hrest⟩ := List.nodup_cons.mp hn
      by_cases hk : k = k'
      · subst hk
        have hall : ∀ p ∈ rest, (!decide (p.1 = k)) = true := by
          intro p hp
          simp only [Bool.not_eq_true', decide_eq_false_iff_not]
          intro hpk
          exact hk' (List.mem_map.mpr ⟨p, hp, hpk⟩)
        have hstep : List.filter (fun p => !decide (p.1 = k)) ((k, e') :: rest)
            = List.filter (fun p => !decide (p.1 = k)) rest := by
          simp
        rw [hstep, List.filter_eq_self.mpr hall]
        simp [mapDelete]
      · have hne : ¬((k' : K) = k) := fun hx => hk hx.symm
        simp [mapDelete, hk, hne, mapDelete_eq_filter hrest k]

theorem removeFirst_eq_filter :
    ∀ {L : List K}, L.Nodup → ∀ (k : K),
      removeFirst L k = L.filter (fun x => !decide (x = k))
  | [], _, _ => rfl
  | x :: xs, h, k => by
      obtain ⟨hx, hxs⟩ := List.nodup_cons.mp h
      by_cases hk : k = x
      · subst hk
        have hall : ∀ y ∈ xs, (!decide (y = k)) = true := by
          intro y hy
          simp only [Bool.not_eq_true', decide_eq_false_iff_not]
          rintro rfl
          exact hx hy
        have hstep : List.filter (fun y => !decide (y = k)) (k :: xs)
            = List.filter (fun y => !decide (y = k)) xs := by
          simp
        rw [hstep, List.filter_eq_self.mpr hall]
        simp [removeFirst]
      · have hne : ¬((x : K) = k) := fun h1 => hk h1.symm
        simp [removeFirst, hk, hne, removeFirst_eq_filter hxs k]

/-! ### Preservation of the structural invariant by every public operation -/

theorem WF_empty (maxSize ttl : Option Nat) :
    WF (LRUCache.empty (K := K) (V := V) maxSize ttl) :=
  ⟨List.Perm.refl [], List.nodup_nil⟩

theorem WF_delete {c : LRUCache K V} (h : WF c) (k : K) : WF (c.delete k).2 := by
  obtain ⟨hperm, hnodup⟩ := h
  constructor
  · show ((mapDelete c.cache k).map Prod.fst).Perm (removeFirst c.keyOrder k)
    rw [map_fst_mapDelete]
    by_cases hk : k ∈ c.keyOrder
    · have hk' : k ∈ c.cache.map Prod.fst := hperm.mem_iff.mpr hk
      have p1 := perm_cons_removeFirst hk'
      have p2 := perm_cons_removeFirst hk
      exact (p1.symm.trans (hperm.trans p2)).cons_inv
    · have hk' : k ∉ c.cache.map Prod.fst := fun hm => hk (hperm.mem_iff.mp hm)
      rw [removeFirst_of_not_mem hk', removeFirst_of_not_mem hk]
      exact hperm
  · exact removeFirst_nodup hnodup k

theorem WF_moveToEnd {c : LRUCache K V} (h : WF c) {k : K}
    (hk : k ∈ c.keyOrder) : WF (c.moveToEnd k) := by
  obtain ⟨hperm, hnodup⟩ := h
  constructor
  · show (c.cache.map Prod.fst).Perm (removeFirst c.keyOrder k ++ [k])
    have p1 : (c.cache.map Prod.fst).Perm (k :: removeFirst c.keyOrder k) :=
      hperm.trans (perm_cons_removeFirst hk)
    exact p1.trans (List.perm_append_singleton k _).symm
  · show (removeFirst c.keyOrder k ++ [k]).Nodup
    rw [List.nodup_append]
    refine ⟨removeFirst_nodup hnodup k, List.nodup_singleton k, ?_⟩
    intro x hx hx1
    rw [List.mem_singleton.mp hx1] at hx
    exact not_mem_removeFirst hnodup k hx

theorem WF_evictOldest {c : LRUCache K V} (h : WF c) : WF c.evictOldest := by
  obtain ⟨hperm, hnodup⟩ := h
  unfold LRUCache.evictOldest
  split
  · exact ⟨hperm, hnodup⟩
  · rename_i oldest rest hko
    rw [hko] at hperm hnodup
    constructor
    · show ((mapDelete c.cache oldest).map Prod.fst).Perm rest
      rw [map_fst_mapDelete]
      have hmem : oldest ∈ c.cache.map Prod.fst :=
        hperm.mem_iff.mpr (List.mem_cons_self _ _)
      have p1 := perm_cons_removeFirst hmem
      exact (p1.symm.trans hperm).cons_inv
    · exact (List.nodup_cons.mp hnodup).2

theorem evictOldest_keyOrder_sublist (c : LRUCache K V) :
    List.Sublist c.evictOldest.keyOrder c.keyOrder := by
  unfold LRUCache.evictOldest
  split
  · exact List.Sublist.refl _
  · rename_i oldest rest hko
    rw [hko]
    exact List.sublist_cons_self _ _

theorem WF_set {c : LRUCache K V} (h : WF c) (now : Nat) (k : K) (v : V) :
    WF (c.set now k v) := by
  unfold LRUCache.set
  by_cases hhas : mapHas c.cache k = true
  · have hmem : k ∈ c.cache.map Prod.fst := (mapHas_eq_true_iff _ _).mp hhas
    have hko : k ∈ c.keyOrder := h.1.mem_iff.mp hmem
    have h1 := WF_moveToEnd h hko
    simp only [hhas, if_true]
    refine ⟨?_, h1.2⟩
    show ((mapSet c.cache k _).map Prod.fst).Perm (c.moveToEnd k).keyOrder
    rw [map_fst_mapSet_of_mem _ hmem]
    exact h1.1
  · have hmem : k ∉ c.cache.map Prod.fst := fun hm =>
      hhas ((mapHas_eq_true_iff _ _).mpr hm)
    have hko : k ∉ c.keyOrder := fun hk => hmem (h.1.mem_iff.mpr hk)
    simp only [hhas, if_false, Bool.false_eq_true]
    have h1 : WF (if c.atCapacity then c.evictOldest else c) := by
      split
      · exact WF_evictOldest h
      · exact h
    have hko1 : k ∉ (if c.atCapacity then c.evictOldest else c).keyOrder := by
      split
      · exact fun hm => hko ((evictOldest_keyOrder_sublist c).subset hm)
      · exact hko
    have hmem1 : k ∉ (if c.atCapacity then c.evictOldest else c).cache.map Prod.fst :=
      fun hm => hko1 (h1.1.mem_iff.mp hm)
    refine ⟨?_, ?_⟩
    · show ((mapSet (if c.atCapacity then c.evictOldest else c).cache k _).map
          Prod.fst).Perm ((if c.atCapacity then c.evictOldest else c).keyOrder ++ [k])
      rw [map_fst_mapSet_of_not_mem _ hmem1]
      exact h1.1.append_right [k]
    · show ((if c.atCapacity then c.evictOldest else c).keyOrder ++ [k]).Nodup
      rw [List.nodup_append]
      refine ⟨h1.2, List.nodup_singleton k, ?_⟩
      intro x hx hx1
      rw [List.mem_singleton.mp hx1] at hx
      exact hko1 hx

theorem WF_get {c : LRUCache K V} (h : WF c) (now : Nat) (k : K) :
    WF (c.get now k).2 := by
  unfold LRUCache.get
  match hg : mapGet c.cache k with
  | none => exact h
  | some e =>
      by_cases he : LRUCache.isExpired now e = true
      · simp only [he, if_true]
        exact WF_delete h k
      · simp only [if_neg he]
        have hmem : k ∈ c.cache.map Prod.fst := mem_map_fst_of_mapGet_eq_some hg
        exact WF_moveToEnd h (h.1.mem_iff.mp hmem)

theorem WF_hasOp {c : LRUCache K V} (h : WF c) (now : Nat) (k : K) :
    WF (c.hasOp now k).2 := by
  unfold LRUCache.hasOp
  match hg : mapGet c.cache k with
  | none => exact h
  | some e =>
      by_cases he : LRUCache.isExpired now e = true
      · simp only [he, if_true]
        exact WF_delete h k
      · simp only [if_neg he]
        exact h

theorem WF_clear (c : LRUCache K V) : WF c.clear :=
  ⟨List.Perm.refl [], List.nodup_nil⟩

theorem WF_foldl_delete :
    ∀ (D : List K) {c : LRUCache K V}, WF c →
      WF (D.foldl (fun acc k => (acc.delete k).2) c)
  | [], _, h => h
  | d :: D, c, h => by
      simp only [List.foldl_cons]
      exact WF_foldl_delete D (WF_delete h d)

theorem WF_pruneExpired {c : LRUCache K V} (h : WF c) (now : Nat) :
    WF (c.pruneExpired now) :=
  WF_foldl_delete _ h

/-! ### The two branches of `set` on a key that is not resident -/

theorem set_not_has_full {c : LRUCache K V} {k : K}
    (hhas : mapHas c.cache k = false) (hcap : c.atCapacity = true)
    (now : Nat) (v : V) :
    c.set now k v =
      { c.evictOldest with
        keyOrder := c.evictOldest.keyOrder ++ [k],
        cache := mapSet c.evictOldest.cache k ⟨v, c.ttl.map (fun d => now + d)⟩ } := by
  simp only [LRUCache.set, hhas, hcap, Bool.false_eq_true, if_false, if_true]

theorem set_not_has_notfull {c : LRUCache K V} {k : K}
    (hhas : mapHas c.cache k = false) (hcap : c.atCapacity = false)
    (now : Nat) (v : V) :
    c.set now k v =
      { c with
        keyOrder := c.keyOrder ++ [k],
        cache := mapSet c.cache k ⟨v, c.ttl.map (fun d => now + d)⟩ } := by
  simp only [LRUCache.set, hhas, hcap, Bool.false_eq_true, if_false]

/-! ### Trajectories of fresh inserts (for the capacity-bound claim) -/

theorem insertAll_fresh_aux {K V : Type} [DecidableEq K] (m : Nat) (hm : 1 ≤ m)
    (ops : List (Nat × K × V)) :
    ∀ (c : LRUCache K V),
      c.maxSize = some m →
      c.cache.map Prod.fst = c.keyOrder →
      c.keyOrder.length ≤ m →
      (∀ op ∈ ops, op.2.1 ∉ c.keyOrder) →
      (ops.map (fun op => op.2.1)).Nodup →
      (c.insertAll ops).keyOrder =
        (c.keyOrder ++ ops.map (fun op => op.2.1)).drop
          (c.keyOrder.length + ops.length - m) ∧
      (c.insertAll ops).cache.map Prod.fst = (c.insertAll ops).keyOrder ∧
      (c.insertAll ops).maxSize = some m := by
  induction ops with
  | nil =>
      intro c hms hal hlen _ _
      simp only [LRUCache.insertAll, List.foldl_nil, List.map_nil, List.append_nil,
        List.length_nil, Nat.add_zero]
      rw [Nat.sub_eq_zero_of_le hlen, List.drop_zero]
      exact ⟨rfl, hal, hms⟩
  | cons op rest ihall =>
      obtain ⟨t, k, v⟩ := op
      intro c hms hal hlen hfresh hnd
      have hk : k ∉ c.keyOrder := hfresh (t, k, v) (List.mem_cons_self _ _)
      have hhas : mapHas c.cache k = false := by
        rw [Bool.eq_false_iff]
        intro hh
        exact hk (hal ▸ (mapHas_eq_true_iff _ _).mp hh)
      have clen : c.cache.length = c.keyOrder.length := by
        have := congrArg List.length hal
        simpa using this
      have hndrest : (rest.map (fun op => op.2.1)).Nodup := by
        simp only [List.map_cons, List.nodup_cons] at hnd
        exact hnd.2
      have hknotin : k ∉ rest.map (fun op => op.2.1) := by
        simp only [List.map_cons, List.nodup_cons] at hnd
        exact hnd.1
      have hunfold : c.insertAll ((t, k, v) :: rest) = (c.set t k v).insertAll rest := rfl
      rcases Nat.lt_or_ge c.keyOrder.length m with hlt | hge
      · -- below capacity: plain append of the new key
        have hcap : c.atCapacity = false := by
          simp only [LRUCache.atCapacity, hms]
          simp [clen, Nat.not_le.mpr hlt]
        have hset := set_not_has_notfull hhas hcap t v
        have hkmap : k ∉ c.cache.map Prod.fst := by rw [hal]; exact hk
        have ih := ihall (c.set t k v)
          (by rw [hset]; exact hms)
          (by rw [hset]
              show (mapSet c.cache k _).map Prod.fst = c.keyOrder ++ [k]
              rw [map_fst_mapSet_of_not_mem _ hkmap, hal])
          (by rw [hset]
              show (c.keyOrder ++ [k]).length ≤ m
              simp only [List.length_append, List.length_singleton, List.length_cons, List.length_nil]
              omega)
          (by intro op hop
              rw [hset]
              show op.2.1 ∉ c.keyOrder ++ [k]
              simp only [List.mem_append, List.mem_singleton]
              rintro (h1 | h1)
              · exact hfresh op (List.mem_cons_of_mem _ hop) h1
              · exact hknotin (h1 ▸ List.mem_map.mpr ⟨op, hop, rfl⟩))
          hndrest
        rw [hunfold]
        refine ⟨?_, ih.2.1, ih.2.2⟩
        rw [ih.1, hset]
        show ((c.keyOrder ++ [k]) ++ rest.map (fun op => op.2.1)).drop
            ((c.keyOrder ++ [k]).length + rest.length - m) = _
        have hlist : (c.keyOrder ++ [k]) ++ rest.map (fun op => op.2.1)
            = c.keyOrder ++ ((t, k, v) :: rest).map (fun op => op.2.1) := by
          simp [List.append_assoc]
        have hamt : (c.keyOrder ++ [k]).length + rest.length - m
            = c.keyOrder.length + ((t, k, v) :: rest).length - m := by
          simp only [List.length_append, List.length_singleton, List.length_cons, List.length_nil]
          omega
        rw [hlist, hamt]
      · -- at capacity: evict the head, then append
        have hfull : c.keyOrder.length = m := Nat.le_antisymm hlen hge
        have hcap : c.atCapacity = true := by
          simp only [LRUCache.atCapacity, hms]
          simp [clen, hfull]
        obtain ⟨o, t', hko⟩ : ∃ o t', c.keyOrder = o :: t' := by
          rcases hko2 : c.keyOrder with _ | ⟨o, t'⟩
          · rw [hko2] at hfull
            simp at hfull
            omega
          · exact ⟨o, t', rfl⟩
        have hset := set_not_has_full hhas hcap t v
        have hcache : c.cache.map Prod.fst = o :: t' := by rw [hal, hko]
        obtain ⟨k1, e1, restc, hc⟩ :
            ∃ k1 e1 restc, c.cache = (k1, e1) :: restc := by
          rcases hc2 : c.cache with _ | ⟨⟨k1, e1⟩, restc⟩
          · rw [hc2] at hcache
            exact absurd hcache (by simp)
          · exact ⟨k1, e1, restc, rfl⟩
        rw [hc] at hcache
        simp only [List.map_cons, List.cons.injEq] at hcache
        obtain ⟨hp1, hrestc⟩ := hcache
        have hevict : c.evictOldest =
            { c with keyOrder := t', cache := restc } := by
          unfold LRUCache.evictOldest
          split
          · rename_i heq
            rw [hko] at heq
            exact absurd heq (by simp)
          · rename_i oldest rest1 heq
            rw [hko] at heq
            injection heq with h1 h2
            subst h1
            subst h2
            rw [hc]
            simp [mapDelete, hp1]
        have hknt' : k ∉ t' := by
          rw [hko] at hk
          exact fun h1 => hk (List.mem_cons_of_mem o h1)
        have hkrestc : k ∉ restc.map Prod.fst := by rw [hrestc]; exact hknt'
        have ih := ihall (c.set t k v)
          (by rw [hset, hevict]; exact hms)
          (by rw [hset, hevict]
              show (mapSet restc k _).map Prod.fst = t' ++ [k]
              rw [map_fst_mapSet_of_not_mem _ hkrestc, hrestc])
          (by rw [hset, hevict]
              show (t' ++ [k]).length ≤ m
              have : c.keyOrder.length = t'.length + 1 := by rw [hko]; simp
              simp only [List.length_append, List.length_singleton, List.length_cons, List.length_nil]
              omega)
          (by intro op hop
              rw [hset, hevict]
              show op.2.1 ∉ t' ++ [k]
              simp only [List.mem_append, List.mem_singleton]
              rintro (h1 | h1)
              · exact hfresh op (List.mem_cons_of_mem _ hop)
                  (hko ▸ List.mem_cons_of_mem o h1)
              · exact hknotin (h1 ▸ List.mem_map.mpr ⟨op, hop, rfl⟩))
          hndrest
        rw [hunfold]
        refine ⟨?_, ih.2.1, ih.2.2⟩
        rw [ih.1, hset, hevict]
        show ((t' ++ [k]) ++ rest.map (fun op => op.2.1)).drop
            ((t' ++ [k]).length + rest.length - m) = _
        have ht'len : t'.length + 1 = m := by
          have : c.keyOrder.length = t'.length + 1 := by rw [hko]; simp
          omega
        have hlist : (t' ++ [k]) ++ rest.map (fun op => op.2.1)
            = t' ++ (k :: rest.map (fun op => op.2.1)) := by
          simp [List.append_assoc]
        have hamt1 : (t' ++ [k]).length + rest.length - m = rest.length := by
          simp only [List.length_append, List.length_singleton, List.length_cons, List.length_nil]
          omega
        have hamt2 : c.keyOrder.length + ((t, k, v) :: rest).length - m
            = rest.length + 1 := by
          rw [hko]
          simp only [List.length_cons]
          omega
        rw [hlist, hamt1, hamt2, hko]
        show List.drop rest.length (t' ++ (k :: rest.map (fun op => op.2.1)))
            = List.drop (rest.length + 1) (o :: (t' ++ (k :: rest.map (fun op => op.2.1))))
        rw [List.drop_succ_cons]

/-! ### Characterisation of `pruneExpired` as a filter -/

theorem eq_of_mem_of_fst_eq :
    ∀ {m : List (K × CacheEntry V)}, (m.map Prod.fst).Nodup →
      ∀ {p q : K × CacheEntry V}, p ∈ m → q ∈ m → p.1 = q.1 → p = q
  | [], _, _, _, hp, _, _ => absurd hp (List.not_mem_nil _)
  | r :: rest, hn, p, q, hp, hq, hfst => by
      obtain ⟨hr, hrest⟩ := List.nodup_cons.mp hn
      rcases List.mem_cons.mp hp with hp1 | hp1 <;>
        rcases List.mem_cons.mp hq with hq1 | hq1
      · rw [hp1, hq1]
      · subst hp1
        exact absurd (List.mem_map.mpr ⟨q, hq1, hfst.symm⟩) hr
      · subst hq1
        exact absurd (List.mem_map.mpr ⟨p, hp1, hfst⟩) hr
      · exact eq_of_mem_of_fst_eq hrest hp1 hq1 hfst

theorem foldl_delete_cache :
    ∀ (D : List K) (c : LRUCache K V), (c.cache.map Prod.fst).Nodup →
      (D.foldl (fun acc k => (acc.delete k).2) c).cache
        = c.cache.filter (fun p => decide (p.1 ∉ D))
  | [], c, _ => by
      have : ∀ p ∈ c.cache, decide ((p : K × CacheEntry V).1 ∉ ([] : List K)) = true := by
        intro p _
        simp
      simp only [List.foldl_nil, List.filter_eq_self.mpr this]
  | d :: D, c, hn => by
      simp only [List.foldl_cons]
      have hdel : ((c.delete d).2).cache = c.cache.filter (fun p => !decide (p.1 = d)) :=
        mapDelete_eq_filter hn d
      have hn' : (((c.delete d).2).cache.map Prod.fst).Nodup := by
        rw [hdel]
        exact hn.sublist ((List.filter_sublist c.cache).map Prod.fst)
      have ih := foldl_delete_cache D ((c.delete d).2) hn'
      rw [ih, hdel, List.filter_filter]
      refine List.filter_congr ?_
      intro p _
      by_cases h1 : p.1 = d
      · simp [h1]
      · by_cases h2 : p.1 ∈ D <;> simp [h1, h2]

theorem pruneExpired_cache {c : LRUCache K V}
    (hn : (c.cache.map Prod.fst).Nodup) (now : Nat) :
    (c.pruneExpired now).cache
      = c.cache.filter (fun p => !LRUCache.isExpired now p.2) := by
  unfold LRUCache.pruneExpired
  rw [foldl_delete_cache _ _ hn]
  refine List.filter_congr ?_
  intro p hp
  by_cases hexp : LRUCache.isExpired now p.2 = true
  · have hmem : p.1 ∈ (c.cache.filter
        (fun q => LRUCache.isExpired now q.2)).map Prod.fst :=
      List.mem_map.mpr ⟨p, List.mem_filter.mpr ⟨hp, hexp⟩, rfl⟩
    simp [hmem, hexp]
  · have hnmem : p.1 ∉ (c.cache.filter
        (fun q => LRUCache.isExpired now q.2)).map Prod.fst := by
      intro hmem
      obtain ⟨q, hq, hq1⟩ := List.mem_map.mp hmem
      obtain ⟨hqmem, hqexp⟩ := List.mem_filter.mp hq
      have : q = p := eq_of_mem_of_fst_eq hn hqmem hp hq1
      rw [this] at hqexp
      exact hexp hqexp
    simp [hnmem, hexp]

/-! ### The entry written by `set`, and lookups in filtered maps -/

theorem get_set_self (c : LRUCache K V) (now : Nat) (k : K) (v : V) :
    mapGet (c.set now k v).cache k = some ⟨v, c.ttl.map (fun d => now + d)⟩ := by
  unfold LRUCache.set
  by_cases hhas : mapHas c.cache k = true
  · simp only [hhas, if_true]
    exact mapGet_mapSet_self _ _ _
  · simp only [if_neg hhas]
    exact mapGet_mapSet_self _ _ _

theorem mapGet_filter_keep :
    ∀ {m : List (K × CacheEntry V)}, (m.map Prod.fst).Nodup →
      ∀ {k : K} {e : CacheEntry V} {f : K × CacheEntry V → Bool},
        mapGet m k = some e → f (k, e) = true → mapGet (m.filter f) k = some e
  | [], _, _, _, _, hg, _ => by simp [mapGet] at hg
  | (k1, e1) :: rest, hn, k, e, f, hg, hf => by
      obtain ⟨h1, hrest⟩ := List.nodup_cons.mp hn
      by_cases hk : k = k1
      · subst hk
        simp only [mapGet, if_pos rfl] at hg
        injection hg with hg
        subst hg
        rw [List.filter_cons]
        simp only [hf, if_true]
        simp [mapGet]
      · simp only [mapGet, if_neg hk] at hg
        rw [List.filter_cons]
        by_cases hf1 : f (k1, e1) = true
        · simp only [hf1, if_true]
          simp only [mapGet, if_neg hk]
          exact mapGet_filter_keep hrest hg hf
        · simp only [hf1]
          simp only [Bool.false_eq_true, if_false]
          exact mapGet_filter_keep hrest hg hf

theorem nodup_cache_of_WF {c : LRUCache K V} (h : WF c) :
    (c.cache.map Prod.fst).Nodup :=
  h.1.nodup_iff.mpr h.2

/-! ## The claims -/

/-- C1, counterexample at `maxCount = 0`: inserting one key into an engine
constructed with `maxSize := 0` leaves one resident entry, so neither
`final size = m` nor `|entries| ≤ maxCount after every insert` holds for
`m = 0` (and `n = 1 > 0 = m`). -/
theorem C1_capacity_bound_counterexample :
    ((LRUCache.empty (K := Nat) (V := Nat) (some 0) none).insertAll
        [(0, 0, 0)]).cache.length = 1
    ∧ ¬(((LRUCache.empty (K := Nat) (V := Nat) (some 0) none).insertAll
        [(0, 0, 0)]).cache.length ≤ 0) := by
  decide

/-- C1 (amended: `maxCount = m ≥ 1`): for every engine constructed with
`maxSize = m ≥ 1` and every sequence of inserts of pairwise-distinct keys
with no intervening `get` calls, after every single insert the number of
resident entries is at most `m`, and after the whole sequence the resident
keys (in both the entry map and the recency order) are exactly the last
`m` keys inserted; when more than `m` keys are inserted the final size is
exactly `m`. -/
theorem C1_capacity_bound_amended (m : Nat) (hm : 1 ≤ m) (ttl : Option Nat)
    (ops : List (Nat × Nat × Nat))
    (hnd : (ops.map (fun op => op.2.1)).Nodup) :
    (∀ i : Nat,
      ((LRUCache.empty (K := Nat) (V := Nat) (some m) ttl).insertAll
          (ops.take i)).cache.length ≤ m)
    ∧ ((LRUCache.empty (K := Nat) (V := Nat) (some m) ttl).insertAll ops).keyOrder
        = (ops.map (fun op => op.2.1)).drop (ops.length - m)
    ∧ ((LRUCache.empty (K := Nat) (V := Nat) (some m) ttl).insertAll ops).cache.map
          Prod.fst
        = ((LRUCache.empty (K := Nat) (V := Nat) (some m) ttl).insertAll ops).keyOrder
    ∧ (m < ops.length →
        ((LRUCache.empty (K := Nat) (V := Nat) (some m) ttl).insertAll
            ops).cache.length = m) := by
  have hmain := insertAll_fresh_aux m hm ops (LRUCache.empty (some m) ttl)
    rfl rfl (by simp [LRUCache.empty]) (by simp [LRUCache.empty]) hnd
  have hlen2 :
      ((LRUCache.empty (K := Nat) (V := Nat) (some m) ttl).insertAll ops).keyOrder
        = (ops.map (fun op => op.2.1)).drop (ops.length - m) := by
    rw [hmain.1]
    show ((([] : List Nat) ++ ops.map (fun op => op.2.1)).drop
      (([] : List Nat).length + ops.length - m)) = _
    simp
  refine ⟨?_, hlen2, hmain.2.1, ?_⟩
  · intro i
    have htake := insertAll_fresh_aux m hm (ops.take i) (LRUCache.empty (some m) ttl)
      rfl rfl (by simp [LRUCache.empty]) (by simp [LRUCache.empty])
      (by rw [List.map_take]
          exact hnd.sublist (List.take_sublist i _))
    have hcl : ((LRUCache.empty (K := Nat) (V := Nat) (some m) ttl).insertAll
        (ops.take i)).cache.length
        = ((LRUCache.empty (K := Nat) (V := Nat) (some m) ttl).insertAll
            (ops.take i)).keyOrder.length := by
      rw [← htake.2.1]
      simp
    rw [hcl, htake.1]
    simp [LRUCache.empty, List.length_drop]
    omega
  · intro hlt
    have hcl : ((LRUCache.empty (K := Nat) (V := Nat) (some m) ttl).insertAll
        ops).cache.length
        = ((LRUCache.empty (K := Nat) (V := Nat) (some m) ttl).insertAll
            ops).keyOrder.length := by
      rw [← hmain.2.1]
      simp
    rw [hcl, hlen2]
    simp only [List.length_drop, List.length_map]
    omega

/-- Witness for C1: `m = 2`, three inserts of distinct keys `10, 11, 12`. -/
theorem C1_capacity_bound_witness :
    (1 ≤ 2
      ∧ (([(0, 10, 1), (1, 11, 2), (2, 12, 3)] : List (Nat × Nat × Nat)).map
          (fun op => op.2.1)).Nodup)
    ∧ ((∀ i : Nat,
        ((LRUCache.empty (K := Nat) (V := Nat) (some 2) none).insertAll
            (([(0, 10, 1), (1, 11, 2), (2, 12, 3)] : List (Nat × Nat × Nat)).take
              i)).cache.length ≤ 2)
      ∧ ((LRUCache.empty (K := Nat) (V := Nat) (some 2) none).insertAll
            [(0, 10, 1), (1, 11, 2), (2, 12, 3)]).keyOrder
          = (([(0, 10, 1), (1, 11, 2), (2, 12, 3)] : List (Nat × Nat × Nat)).map
              (fun op => op.2.1)).drop
              (([(0, 10, 1), (1, 11, 2), (2, 12, 3)] : List (Nat × Nat × Nat)).length - 2)
      ∧ ((LRUCache.empty (K := Nat) (V := Nat) (some 2) none).insertAll
            [(0, 10, 1), (1, 11, 2), (2, 12, 3)]).cache.map Prod.fst
          = ((LRUCache.empty (K := Nat) (V := Nat) (some 2) none).insertAll
              [(0, 10, 1), (1, 11, 2), (2, 12, 3)]).keyOrder
      ∧ (2 < ([(0, 10, 1), (1, 11, 2), (2, 12, 3)] : List (Nat × Nat × Nat)).length →
          ((LRUCache.empty (K := Nat) (V := Nat) (some 2) none).insertAll
              [(0, 10, 1), (1, 11, 2), (2, 12, 3)]).cache.length = 2)) :=
  ⟨⟨by decide, by decide⟩,
    C1_capacity_bound_amended 2 (by decide) none
      [(0, 10, 1), (1, 11, 2), (2, 12, 3)] (by decide)⟩

/-- C2: capacity eviction removes exactly the least-recently-used key, a hit
via `get` refreshes recency: with `maxSize = 3`, after
`set a; set b; set c; get a; set d` (keys `a,b,c,d` encoded as `0,1,2,3`)
the `get` returns the stored value, key `b` is gone and `a, c, d` remain,
with recency order `c, a, d`. -/
theorem C2_lru_eviction_recency :
    ((((((LRUCache.empty (K := Nat) (V := Nat) (some 3) none).set 0 0 1).set 0 1
        2).set 0 2 3).get 0 0).1 = some 1)
    ∧ ((((((((LRUCache.empty (K := Nat) (V := Nat) (some 3) none).set 0 0 1).set 0
        1 2).set 0 2 3).get 0 0).2).set 0 3 4).keyOrder = [2, 0, 3])
    ∧ (((((((((LRUCache.empty (K := Nat) (V := Nat) (some 3) none).set 0 0 1).set
        0 1 2).set 0 2 3).get 0 0).2).set 0 3 4).hasOp 0 0).1 = true)
    ∧ (((((((((LRUCache.empty (K := Nat) (V := Nat) (some 3) none).set 0 0 1).set
        0 1 2).set 0 2 3).get 0 0).2).set 0 3 4).hasOp 0 1).1 = false)
    ∧ (((((((((LRUCache.empty (K := Nat) (V := Nat) (some 3) none).set 0 0 1).set
        0 1 2).set 0 2 3).get 0 0).2).set 0 3 4).hasOp 0 2).1 = true)
    ∧ (((((((((LRUCache.empty (K := Nat) (V := Nat) (some 3) none).set 0 0 1).set
        0 1 2).set 0 2 3).get 0 0).2).set 0 3 4).hasOp 0 3).1 = true) := by
  decide

/-- C5 is violated by the code: the constructor performs no validation, so
constructing with neither `maxSize` nor `maxMemoryBytes` succeeds (no error
is raised) and returns a working engine; the repository's own test suite
expects `new LRUCache({})` to throw
`Either maxSize or maxMemoryBytes must be specified`. -/
theorem C5_constructor_never_validates :
    (LRUCache.mk' (K := Nat) (V := Nat) {} false
      = Except.ok (LRUCache.empty none none))
    ∧ ((LRUCache.empty (K := Nat) (V := Nat) none none).set 0 0 5).cache.length
        = 1 :=
  ⟨rfl, by decide⟩

/-- C6 is violated by the code: there is no sliding TTL. With `ttl = 100` and
`slidingTTL := true` in the options, a `get` at 60ms after creation hits but
leaves the stored expiry unchanged at 100, and a `get` at 120ms misses —
the entry is absent even though sliding TTL was requested. -/
theorem C6_no_sliding_ttl :
    (LRUCache.mk' (K := Nat) (V := Nat)
        { maxSize := some 10, ttl := some 100, slidingTTL := true } false
      = Except.ok (LRUCache.empty (some 10) (some 100)))
    ∧ ((((LRUCache.empty (K := Nat) (V := Nat) (some 10) (some 100)).set 0 0
        123).get 60 0).1 = some 123)
    ∧ (mapGet (((((LRUCache.empty (K := Nat) (V := Nat) (some 10) (some
        100)).set 0 0 123).get 60 0).2)).cache 0 = some ⟨123, some 100⟩)
    ∧ ((((((LRUCache.empty (K := Nat) (V := Nat) (some 10) (some 100)).set 0 0
        123).get 60 0).2).get 120 0).1 = none) :=
  ⟨rfl, by decide, by decide, by decide⟩

/-- C7 is violated by the code: `maxMemoryBytes` is never read, no sizes are
estimated and no memory-based eviction exists. An engine constructed with
only `maxMemoryBytes := 1000` has `maxSize = undefined`, the capacity test
is always false, and five inserts leave all five entries resident (the
repository's own test expects the first key to be evicted). -/
theorem C7_no_memory_accounting :
    (LRUCache.mk' (K := Nat) (V := Nat) { maxMemoryBytes := some 1000 } false
      = Except.ok (LRUCache.empty none none))
    ∧ (((LRUCache.empty (K := Nat) (V := Nat) none none).insertAll
        [(0, 0, 100), (0, 1, 100), (0, 2, 100), (0, 3, 100), (0, 4, 100)]).cache.length
        = 5)
    ∧ ((((LRUCache.empty (K := Nat) (V := Nat) none none).insertAll
        [(0, 0, 100), (0, 1, 100), (0, 2, 100), (0, 3, 100), (0, 4, 100)]).hasOp 0
          0).1 = true) :=
  ⟨rfl, by decide, by decide⟩

/-- C3: a `get` of a resident but expired entry (current time strictly past
its expiry) returns `none` — a miss, never an error — and removes the entry
from both the entry map and the recency order; consequently an entry set
with `ttl = 100` is present immediately after the `set` and absent when
queried 150ms or more later. -/
theorem C3_expired_get_is_pruning_miss {K V : Type} [DecidableEq K]
    (c : LRUCache K V) (h : WF c) (now : Nat) (k : K) (e : CacheEntry V)
    (hget : mapGet c.cache k = some e)
    (hexp : LRUCache.isExpired now e = true) :
    (c.get now k).1 = none
    ∧ mapHas ((c.get now k).2).cache k = false
    ∧ k ∉ ((c.get now k).2).keyOrder
    ∧ (∀ (c' : LRUCache K V) (t0 : Nat) (k' : K) (v' : V), c'.ttl = some 100 →
        ((c'.set t0 k' v').get t0 k').1 = some v'
        ∧ ∀ t : Nat, t0 + 150 ≤ t → ((c'.set t0 k' v').get t k').1 = none) := by
  have hn := nodup_cache_of_WF h
  have hG : c.get now k = (none, (c.delete k).2) := by
    unfold LRUCache.get
    rw [hget]
    simp [hexp]
  have hnotin : k ∉ ((c.delete k).2).cache.map Prod.fst := by
    show k ∉ (mapDelete c.cache k).map Prod.fst
    rw [map_fst_mapDelete]
    exact not_mem_removeFirst hn k
  refine ⟨by rw [hG], ?_, ?_, ?_⟩
  · rw [hG]
    rw [Bool.eq_false_iff]
    intro hh
    exact hnotin ((mapHas_eq_true_iff _ _).mp hh)
  · rw [hG]
    show k ∉ removeFirst c.keyOrder k
    exact not_mem_removeFirst h.2 k
  · intro c' t0 k' v' httl
    have hg := get_set_self c' t0 k' v'
    rw [httl] at hg
    simp only [Option.map_some'] at hg
    constructor
    · unfold LRUCache.get
      rw [hg]
      have : LRUCache.isExpired t0 (⟨v', some (t0 + 100)⟩ : CacheEntry V) = false := by
        simp [LRUCache.isExpired]
      simp [this]
    · intro t ht
      unfold LRUCache.get
      rw [hg]
      have : LRUCache.isExpired t (⟨v', some (t0 + 100)⟩ : CacheEntry V) = true := by
        simp [LRUCache.isExpired]
        omega
      simp [this]

/-- Witness for C3: a cache with `ttl = 10`, key 7 set at time 0, queried at
time 50 (entry expired at 10). -/
theorem C3_expired_get_witness :
    (WF ((LRUCache.empty (K := Nat) (V := Nat) (some 5) (some 10)).set 0 7 42)
      ∧ mapGet ((LRUCache.empty (K := Nat) (V := Nat) (some 5) (some 10)).set 0 7
          42).cache 7 = some ⟨42, some 10⟩
      ∧ LRUCache.isExpired 50 (⟨42, some 10⟩ : CacheEntry Nat) = true)
    ∧ ((((LRUCache.empty (K := Nat) (V := Nat) (some 5) (some 10)).set 0 7 42).get
          50 7).1 = none
      ∧ mapHas (((((LRUCache.empty (K := Nat) (V := Nat) (some 5) (some 10)).set 0
          7 42).get 50 7).2)).cache 7 = false
      ∧ 7 ∉ (((((LRUCache.empty (K := Nat) (V := Nat) (some 5) (some 10)).set 0 7
          42).get 50 7).2)).keyOrder
      ∧ (∀ (c' : LRUCache Nat Nat) (t0 : Nat) (k' : Nat) (v' : Nat),
          c'.ttl = some 100 →
          ((c'.set t0 k' v').get t0 k').1 = some v'
          ∧ ∀ t : Nat, t0 + 150 ≤ t → ((c'.set t0 k' v').get t k').1 = none)) :=
  ⟨⟨by decide, by decide, by decide⟩,
    C3_expired_get_is_pruning_miss _ (by decide) 50 7 ⟨42, some 10⟩ (by decide)
      (by decide)⟩

/-- C4: after every public operation (`set`, `get`, `has`, `delete`, `clear`,
`size` and the iteration operations, whose state change is `pruneExpired`)
the entry map and the recency order hold exactly the same keys, and a key is
in the entry map iff it occupies exactly one position in the recency order;
in particular both structures have the same number of elements. -/
theorem C4_store_order_consistency {K V : Type} [DecidableEq K]
    (c : LRUCache K V) (h : WF c) (now : Nat) (k : K) (v : V) :
    WF (c.set now k v) ∧ WF (c.get now k).2 ∧ WF (c.hasOp now k).2
    ∧ WF (c.delete k).2 ∧ WF c.clear ∧ WF (c.pruneExpired now)
    ∧ WF (c.size now).2 ∧ WF (c.keysOp now).2 ∧ WF (c.valuesOp now).2
    ∧ WF (c.entriesOp now).2 ∧ WF (c.forEachOp now).2
    ∧ c.cache.length = c.keyOrder.length
    ∧ (∀ x : K, x ∈ c.cache.map Prod.fst ↔ c.keyOrder.count x = 1) := by
  have hp := WF_pruneExpired h now
  refine ⟨WF_set h now k v, WF_get h now k, WF_hasOp h now k, WF_delete h k,
    WF_clear c, hp, hp, hp, hp, hp, hp, ?_, ?_⟩
  · have := h.1.length_eq
    simpa using this
  · intro x
    constructor
    · intro hx
      exact List.count_eq_one_of_mem h.2 (h.1.mem_iff.mp hx)
    · intro hc
      have hpos : 0 < c.keyOrder.count x := by omega
      exact h.1.mem_iff.mpr (List.count_pos_iff.mp hpos)

/-- Witness for C4: a two-entry cache with `ttl = 100`, checked at time 150
with a `set`/`get`/`delete` of key 0. -/
theorem C4_store_order_witness :
    WF (((LRUCache.empty (K := Nat) (V := Nat) (some 3) (some 100)).set 0 0
        1).set 1 1 2)
    ∧ (WF ((((LRUCache.empty (K := Nat) (V := Nat) (some 3) (some 100)).set 0 0
          1).set 1 1 2).set 150 0 9)
      ∧ WF (((((LRUCache.empty (K := Nat) (V := Nat) (some 3) (some 100)).set 0 0
          1).set 1 1 2).get 150 0).2)
      ∧ WF (((((LRUCache.empty (K := Nat) (V := Nat) (some 3) (some 100)).set 0 0
          1).set 1 1 2).hasOp 150 0).2)
      ∧ WF (((((LRUCache.empty (K := Nat) (V := Nat) (some 3) (some 100)).set 0 0
          1).set 1 1 2).delete 0).2)
      ∧ WF ((((LRUCache.empty (K := Nat) (V := Nat) (some 3) (some 100)).set 0 0
          1).set 1 1 2).clear)
      ∧ WF ((((LRUCache.empty (K := Nat) (V := Nat) (some 3) (some 100)).set 0 0
          1).set 1 1 2).pruneExpired 150)
      ∧ WF (((((LRUCache.empty (K := Nat) (V := Nat) (some 3) (some 100)).set 0 0
          1).set 1 1 2).size 150).2)
      ∧ WF (((((LRUCache.empty (K := Nat) (V := Nat) (some 3) (some 100)).set 0 0
          1).set 1 1 2).keysOp 150).2)
      ∧ WF (((((LRUCache.empty (K := Nat) (V := Nat) (some 3) (some 100)).set 0 0
          1).set 1 1 2).valuesOp 150).2)
      ∧ WF (((((LRUCache.empty (K := Nat) (V := Nat) (some 3) (some 100)).set 0 0
          1).set 1 1 2).entriesOp 150).2)
      ∧ WF (((((LRUCache.empty (K := Nat) (V := Nat) (some 3) (some 100)).set 0 0
          1).set 1 1 2).forEachOp 150).2)
      ∧ ((((LRUCache.empty (K := Nat) (V := Nat) (some 3) (some 100)).set 0 0
          1).set 1 1 2).cache.length
        = (((LRUCache.empty (K := Nat) (V := Nat) (some 3) (some 100)).set 0 0
          1).set 1 1 2).keyOrder.length)
      ∧ (∀ x : Nat,
          x ∈ (((LRUCache.empty (K := Nat) (V := Nat) (some 3) (some 100)).set 0 0
              1).set 1 1 2).cache.map Prod.fst
          ↔ (((LRUCache.empty (K := Nat) (V := Nat) (some 3) (some 100)).set 0 0
              1).set 1 1 2).keyOrder.count x = 1)) :=
  ⟨by decide, C4_store_order_consistency _ (by decide) 150 0 9⟩

/-- C8: `delete(k)` returns true iff `k` is resident (in the entry map) at
the moment of the call — expiry is never consulted, so an expired-but-present
entry still reports removed — and afterwards `k` is in neither structure; a
second delete of the same key returns false. -/
theorem C8_delete_semantics {K V : Type} [DecidableEq K]
    (c : LRUCache K V) (h : WF c) (k : K) :
    ((c.delete k).1 = true ↔ k ∈ c.cache.map Prod.fst)
    ∧ mapHas ((c.delete k).2).cache k = false
    ∧ k ∉ ((c.delete k).2).keyOrder
    ∧ (((c.delete k).2).delete k).1 = false := by
  have hn := nodup_cache_of_WF h
  have hnotin : k ∉ ((c.delete k).2).cache.map Prod.fst := by
    show k ∉ (mapDelete c.cache k).map Prod.fst
    rw [map_fst_mapDelete]
    exact not_mem_removeFirst hn k
  refine ⟨mapHas_eq_true_iff _ _, ?_, ?_, ?_⟩
  · rw [Bool.eq_false_iff]
    intro hh
    exact hnotin ((mapHas_eq_true_iff _ _).mp hh)
  · show k ∉ removeFirst c.keyOrder k
    exact not_mem_removeFirst h.2 k
  · show mapHas ((c.delete k).2).cache k = false
    rw [Bool.eq_false_iff]
    intro hh
    exact hnotin ((mapHas_eq_true_iff _ _).mp hh)

/-- Witness for C8: deleting key 4 from a cache where it is resident (and
already expired at the notional current time, which `delete` ignores). -/
theorem C8_delete_witness :
    WF ((LRUCache.empty (K := Nat) (V := Nat) (some 3) (some 10)).set 0 4 7)
    ∧ (((((LRUCache.empty (K := Nat) (V := Nat) (some 3) (some 10)).set 0 4
          7).delete 4).1 = true
        ↔ 4 ∈ ((LRUCache.empty (K := Nat) (V := Nat) (some 3) (some 10)).set 0 4
            7).cache.map Prod.fst)
      ∧ mapHas (((((LRUCache.empty (K := Nat) (V := Nat) (some 3) (some 10)).set 0
          4 7).delete 4).2)).cache 4 = false
      ∧ 4 ∉ (((((LRUCache.empty (K := Nat) (V := Nat) (some 3) (some 10)).set 0 4
          7).delete 4).2)).keyOrder
      ∧ ((((((LRUCache.empty (K := Nat) (V := Nat) (some 3) (some 10)).set 0 4
          7).delete 4).2)).delete 4).1 = false) :=
  ⟨by decide, C8_delete_semantics _ (by decide) 4⟩

/-- C9: `size` and the iteration operations first remove every expired entry
(the pruned entry map is exactly the filter of the non-expired entries), so
`size` counts only non-expired entries, the iterations enumerate exactly the
non-expired entries, and nothing expired survives in the state they leave
behind. -/
theorem C9_reads_prune_first {K V : Type} [DecidableEq K]
    (c : LRUCache K V) (h : WF c) (now : Nat) :
    (c.size now).2.cache = c.cache.filter (fun p => !LRUCache.isExpired now p.2)
    ∧ (c.size now).1
        = (c.cache.filter (fun p => !LRUCache.isExpired now p.2)).length
    ∧ (c.keysOp now).1
        = (c.cache.filter (fun p => !LRUCache.isExpired now p.2)).map Prod.fst
    ∧ (c.valuesOp now).1
        = (c.cache.filter (fun p => !LRUCache.isExpired now p.2)).map
            (fun p => p.2.value)
    ∧ (c.entriesOp now).1
        = (c.cache.filter (fun p => !LRUCache.isExpired now p.2)).map
            (fun p => (p.1, p.2.value))
    ∧ (c.forEachOp now).1
        = (c.cache.filter (fun p => !LRUCache.isExpired now p.2)).map
            (fun p => (p.2.value, p.1))
    ∧ (∀ (k : K) (e : CacheEntry V),
        mapGet ((c.size now).2).cache k = some e →
          LRUCache.isExpired now e = false) := by
  have hn := nodup_cache_of_WF h
  have hP := pruneExpired_cache hn now
  have hQ : (c.pruneExpired now).cache.filter
      (fun p => !LRUCache.isExpired now p.2) = (c.pruneExpired now).cache := by
    apply List.filter_eq_self.mpr
    intro p hp
    rw [hP] at hp
    exact (List.mem_filter.mp hp).2
  refine ⟨hP, congrArg List.length hP, congrArg (List.map Prod.fst) hP, ?_, ?_, ?_, ?_⟩
  · show ((c.pruneExpired now).cache.filter
        (fun p => !LRUCache.isExpired now p.2)).map (fun p => p.2.value) = _
    rw [hQ, hP]
  · show ((c.pruneExpired now).cache.filter
        (fun p => !LRUCache.isExpired now p.2)).map (fun p => (p.1, p.2.value)) = _
    rw [hQ, hP]
  · show ((c.pruneExpired now).cache.filter
        (fun p => !LRUCache.isExpired now p.2)).map (fun p => (p.2.value, p.1)) = _
    rw [hQ, hP]
  · intro k e hg
    have hmem : (k, e) ∈ (c.pruneExpired now).cache := mem_of_mapGet_eq_some hg
    rw [hP] at hmem
    have := (List.mem_filter.mp hmem).2
    simpa using this

/-- Witness for C9: a cache holding one expired entry (key 1, expiry 10) and
one live entry (key 2, expiry 55), read at time 50. -/
theorem C9_reads_prune_witness :
    WF (((LRUCache.empty (K := Nat) (V := Nat) (some 5) (some 10)).set 0 1
        11).set 45 2 22)
    ∧ (((((LRUCache.empty (K := Nat) (V := Nat) (some 5) (some 10)).set 0 1
          11).set 45 2 22).size 50).2.cache
        = ((((LRUCache.empty (K := Nat) (V := Nat) (some 5) (some 10)).set 0 1
            11).set 45 2 22).cache.filter
            (fun p => !LRUCache.isExpired 50 p.2))
      ∧ ((((LRUCache.empty (K := Nat) (V := Nat) (some 5) (some 10)).set 0 1
          11).set 45 2 22).size 50).1
        = ((((LRUCache.empty (K := Nat) (V := Nat) (some 5) (some 10)).set 0 1
            11).set 45 2 22).cache.filter
            (fun p => !LRUCache.isExpired 50 p.2)).length
      ∧ ((((LRUCache.empty (K := Nat) (V := Nat) (some 5) (some 10)).set 0 1
          11).set 45 2 22).keysOp 50).1
        = ((((LRUCache.empty (K := Nat) (V := Nat) (some 5) (some 10)).set 0 1
            11).set 45 2 22).cache.filter
            (fun p => !LRUCache.isExpired 50 p.2)).map Prod.fst
      ∧ ((((LRUCache.empty (K := Nat) (V := Nat) (some 5) (some 10)).set 0 1
          11).set 45 2 22).valuesOp 50).1
        = ((((LRUCache.empty (K := Nat) (V := Nat) (some 5) (some 10)).set 0 1
            11).set 45 2 22).cache.filter
            (fun p => !LRUCache.isExpired 50 p.2)).map (fun p => p.2.value)
      ∧ ((((LRUCache.empty (K := Nat) (V := Nat) (some 5) (some 10)).set 0 1
          11).set 45 2 22).entriesOp 50).1
        = ((((LRUCache.empty (K := Nat) (V := Nat) (some 5) (some 10)).set 0 1
            11).set 45 2 22).cache.filter
            (fun p => !LRUCache.isExpired 50 p.2)).map (fun p => (p.1, p.2.value))
      ∧ ((((LRUCache.empty (K := Nat) (V := Nat) (some 5) (some 10)).set 0 1
          11).set 45 2 22).forEachOp 50).1
        = ((((LRUCache.empty (K := Nat) (V := Nat) (some 5) (some 10)).set 0 1
            11).set 45 2 22).cache.filter
            (fun p => !LRUCache.isExpired 50 p.2)).map (fun p => (p.2.value, p.1))
      ∧ (∀ (k : Nat) (e : CacheEntry Nat),
          mapGet (((((LRUCache.empty (K := Nat) (V := Nat) (some 5) (some
              10)).set 0 1 11).set 45 2 22).size 50).2).cache k = some e →
            LRUCache.isExpired 50 e = false)) :=
  ⟨by decide, C9_reads_prune_first _ (by decide) 50⟩

/-- C10: expiry is strict — an entry is expired only when the current time is
strictly greater than its expiry, so a lookup at `now = expiry` still hits
(in particular with `ttl = 0` a `set` followed by a `get` at the same
millisecond returns the value), and an entry created with no TTL has
`expiry = Infinity` (`none`), is never expired, and survives every expiry
check (`get`, `has`, `pruneExpired`). -/
theorem C10_strict_expiry {K V : Type} [DecidableEq K]
    (c : LRUCache K V) (h : WF c) (now t : Nat) (k : K) (v : V)
    (e : CacheEntry V) :
    (LRUCache.isExpired now e = true ↔ ∃ x, e.expiry = some x ∧ x < now)
    ∧ (mapGet c.cache k = some e → e.expiry = some now →
        (c.get now k).1 = some e.value)
    ∧ (c.ttl = some 0 → ((c.set now k v).get now k).1 = some v)
    ∧ (c.ttl = none → mapGet (c.set now k v).cache k = some ⟨v, none⟩)
    ∧ (e.expiry = none → LRUCache.isExpired t e = false)
    ∧ (mapGet c.cache k = some e → e.expiry = none →
        mapGet ((c.pruneExpired t).cache) k = some e
        ∧ (c.get t k).1 = some e.value
        ∧ (c.hasOp t k).1 = true) := by
  have hnd := nodup_cache_of_WF h
  refine ⟨?_, ?_, ?_, ?_, ?_, ?_⟩
  · obtain ⟨val, ex⟩ := e
    cases ex <;> simp [LRUCache.isExpired]
  · intro hg hx
    unfold LRUCache.get
    rw [hg]
    have hne : LRUCache.isExpired now e = false := by
      simp [LRUCache.isExpired, hx]
    simp [hne]
  · intro h0
    have hg := get_set_self c now k v
    rw [h0] at hg
    simp only [Option.map_some'] at hg
    unfold LRUCache.get
    rw [hg]
    simp [LRUCache.isExpired]
  · intro h0
    have hg := get_set_self c now k v
    rw [h0] at hg
    simpa using hg
  · intro hn0
    simp [LRUCache.isExpired, hn0]
  · intro hg hn0
    have hexp : LRUCache.isExpired t e = false := by
      simp [LRUCache.isExpired, hn0]
    refine ⟨?_, ?_, ?_⟩
    · rw [pruneExpired_cache hnd t]
      exact mapGet_filter_keep hnd hg (by simp [hexp])
    · unfold LRUCache.get
      rw [hg]
      simp [hexp]
    · unfold LRUCache.hasOp
      rw [hg]
      simp [hexp]

/-- Witness for C10: `ttl = 0`, key 3 set at time 5, whose entry has
`expiry = some 5`, looked up exactly at time 5. -/
theorem C10_strict_expiry_witness :
    WF ((LRUCache.empty (K := Nat) (V := Nat) (some 5) (some 0)).set 5 3 9)
    ∧ ((LRUCache.isExpired 5 (⟨9, some 5⟩ : CacheEntry Nat) = true
        ↔ ∃ x, (⟨9, some 5⟩ : CacheEntry Nat).expiry = some x ∧ x < 5)
      ∧ (mapGet ((LRUCache.empty (K := Nat) (V := Nat) (some 5) (some 0)).set 5 3
            9).cache 3 = some ⟨9, some 5⟩ →
          (⟨9, some 5⟩ : CacheEntry Nat).expiry = some 5 →
          (((LRUCache.empty (K := Nat) (V := Nat) (some 5) (some 0)).set 5 3
              9).get 5 3).1 = some (⟨9, some 5⟩ : CacheEntry Nat).value)
      ∧ (((LRUCache.empty (K := Nat) (V := Nat) (some 5) (some 0)).set 5 3
            9).ttl = some 0 →
          ((((LRUCache.empty (K := Nat) (V := Nat) (some 5) (some 0)).set 5 3
              9).set 5 3 9).get 5 3).1 = some 9)
      ∧ (((LRUCache.empty (K := Nat) (V := Nat) (some 5) (some 0)).set 5 3
            9).ttl = none →
          mapGet (((LRUCache.empty (K := Nat) (V := Nat) (some 5) (some 0)).set 5
              3 9).set 5 3 9).cache 3 = some ⟨9, none⟩)
      ∧ ((⟨9, some 5⟩ : CacheEntry Nat).expiry = none →
          LRUCache.isExpired 1000 (⟨9, some 5⟩ : CacheEntry Nat) = false)
      ∧ (mapGet ((LRUCache.empty (K := Nat) (V := Nat) (some 5) (some 0)).set 5 3
            9).cache 3 = some ⟨9, some 5⟩ →
          (⟨9, some 5⟩ : CacheEntry Nat).expiry = none →
          mapGet ((((LRUCache.empty (K := Nat) (V := Nat) (some 5) (some 0)).set 5
              3 9).pruneExpired 1000).cache) 3 = some ⟨9, some 5⟩
          ∧ (((LRUCache.empty (K := Nat) (V := Nat) (some 5) (some 0)).set 5 3
              9).get 1000 3).1 = some (⟨9, some 5⟩ : CacheEntry Nat).value
          ∧ (((LRUCache.empty (K := Nat) (V := Nat) (some 5) (some 0)).set 5 3
              9).hasOp 1000 3).1 = true)) :=
  ⟨by decide, C10_strict_expiry _ (by decide) 5 1000 3 9 ⟨9, some 5⟩⟩

end TTLCache

